import Mathlib

/-!
Shallow embedding of the `bio_utils` repository (Rust) used to check the
natural-language specification against the code.

Conventions of the embedding:
* Rust machine integers (`usize`, `u64`, `u32`, `u8`) are modelled as `Nat`.
  The repository's arithmetic never relies on wrapping: in debug builds Rust
  aborts on overflow, so on every non-aborting execution the `Nat` semantics
  agrees with the Rust semantics.
* Byte strings (`&[u8]`, `Vec<u8>`) are modelled as `List Nat`, one entry per
  byte; `String` keeps Lean's `String`, operated on through its character
  list `String.data` (UTF-8 byte order and code-point order agree).
* Fallible code (`Option`, `Result`) returns `Option` / `Except`; a `panic!`
  or an out-of-bounds slice is modelled by `Option` absence where a claim
  depends on it.
* Iterator pipelines (`fold`, `map`, `sum`) become `List.foldl` / `List.map` /
  `List.sum` over the same elements in the same order.
-/

namespace BioUtils

/-! ## src/sam.rs : the operation model -/

namespace sam

/-- CIGAR operation (`sam.rs`, `enum Op`).  The payload is the run length. -/
inductive Op where
  | Align : Nat → Op
  | Insertion : Nat → Op
  | Deletion : Nat → Op
  | Skipped : Nat → Op
  | SoftClip : Nat → Op
  | HardClip : Nat → Op
  | Padding : Nat → Op
  | Match : Nat → Op
  | Mismatch : Nat → Op
deriving DecidableEq, Repr

/-- Run length carried by an operation. -/
def Op.len : Op → Nat
  | .Align l | .Insertion l | .Deletion l | .Skipped l | .SoftClip l
  | .HardClip l | .Padding l | .Match l | .Mismatch l => l

/-- Lookup of the one-letter operation code (`sam.rs`, `Op::from`). -/
def Op.from (num : Nat) (op : Char) : Option Op :=
  match op with
  | 'M' => some (Op.Align num)
  | 'I' => some (Op.Insertion num)
  | 'D' => some (Op.Deletion num)
  | 'N' => some (Op.Skipped num)
  | 'S' => some (Op.SoftClip num)
  | 'H' => some (Op.HardClip num)
  | 'P' => some (Op.Padding num)
  | '=' => some (Op.Match num)
  | 'X' => some (Op.Mismatch num)
  | _ => none

/-- Decimal digit characters of `n`, most significant first, as produced by
Rust's `format!("{}", n)`.  The first argument is structural fuel; it is
sufficient whenever `n < fuel`. -/
def decDigitsCore : Nat → Nat → List Char
  | 0, _ => []
  | fuel + 1, n =>
    if n < 10 then [Nat.digitChar n]
    else decDigitsCore fuel (n / 10) ++ [Nat.digitChar (n % 10)]

/-- Decimal rendering of a natural number (Rust `format!("{}", n)`). -/
def decDigits (n : Nat) : List Char := decDigitsCore (n + 1) n

/-- Textual rendering of one operation (`sam.rs`, `Op::as_str`):
`{length}{code}` with no separator. -/
def Op.as_str (op : Op) : String :=
  let p : Nat × Char :=
    match op with
    | .Align x => (x, 'M')
    | .Insertion x => (x, 'I')
    | .Deletion x => (x, 'D')
    | .Skipped x => (x, 'N')
    | .SoftClip x => (x, 'S')
    | .HardClip x => (x, 'H')
    | .Padding x => (x, 'P')
    | .Match x => (x, '=')
    | .Mismatch x => (x, 'X')
  ⟨decDigits p.1 ++ [p.2]⟩

/-- One step of the CIGAR scanner (`sam.rs`, `parse_cigar_string` loop body):
a digit extends the pending run length, any other character looks the
operation code up and emits it, silently dropping unrecognized codes. -/
def parseCigarStep (acc : List Op × Nat) (x : Char) : List Op × Nat :=
  if x.isDigit then (acc.1, 10 * acc.2 + (x.toNat - '0'.toNat))
  else
    match Op.from acc.2 x with
    | some res => (acc.1 ++ [res], 0)
    | none => (acc.1, 0)

/-- Run-length CIGAR decoder (`sam.rs`, `parse_cigar_string`). -/
def parse_cigar_string (cigar : String) : List Op :=
  (cigar.data.foldl parseCigarStep ([], 0)).1

/-! ## src/sam.rs : SAM records and coverage -/

/-- One SAM alignment line (`sam.rs`, `struct Sam`).  The CIGAR is stored as
text, exactly as in the source, and decoded on demand by `Sam.cigar`. -/
structure Sam where
  q_name : String
  flag : Nat
  r_name : String
  pos : Nat
  mapq : Nat
  cigar_str : String
  rnext : String
  pnext : Nat
  tlen : Nat
  seq : String
  qual : List Nat
  attr : Option String
deriving Repr

/-- Decoded operation sequence of a record (`sam.rs`, `Sam::cigar`). -/
def Sam.cigar (s : Sam) : List Op := parse_cigar_string s.cigar_str

/-- Whether the 0x10 flag bit is unset (`sam.rs`, `Sam::is_forward`). -/
def Sam.is_forward (s : Sam) : Bool := !(s.flag.testBit 4)

/-- Reference-consumed length of an operation sequence: the summand each
operation contributes in `sam.rs`, `Sam::get_range`. -/
def refConsumedLen (ops : List Op) : Nat :=
  (ops.map fun op =>
    match op with
    | .Align b | .Match b | .Deletion b | .Skipped b | .Mismatch b => b
    | .Insertion _ | .SoftClip _ | .HardClip _ | .Padding _ => 0).sum

/-- Mapping region with respect to the reference, 0-based
(`sam.rs`, `Sam::get_range`). -/
def Sam.get_range (s : Sam) : Nat × Nat :=
  let start := s.pos
  if start = 0 then (0, 0)
  else (start - 1, start + refConsumedLen s.cigar - 1)

/-- Sparse per-position depth table for one reference
(`sam.rs`, `struct Coverage`). -/
structure Coverage where
  r_name : String
  cov : List (Nat × Nat)
deriving DecidableEq, Repr

/-- Loop body of `Sam::to_coverage`: the state is the entry list built so far
together with the reference cursor. -/
def covStep (acc : List (Nat × Nat) × Nat) (op : Op) : List (Nat × Nat) × Nat :=
  match op with
  | .Align b | .Match b =>
    (acc.1 ++ (List.range b).map (fun i => (acc.2 + i, 1)), acc.2 + b)
  | .Insertion _ | .SoftClip _ | .HardClip _ | .Padding _ => acc
  | .Deletion b | .Skipped b | .Mismatch b => (acc.1, acc.2 + b)

/-- Per-record coverage (`sam.rs`, `Sam::to_coverage`): the cursor starts at
the record's `pos` field and each Align/Match base pushes a depth-1 entry. -/
def Sam.to_coverage (s : Sam) : Coverage :=
  { r_name := s.r_name, cov := (s.cigar.foldl covStep ([], s.pos)).1 }

/-! ### Alignment reconstruction (`sam.rs`, `recover_alignment`) -/

/-- Bytes of a string literal, for the bracketed header and footer
annotations. -/
def strBytes (s : String) : List Nat := s.data.map Char.toNat

/-- Zero-padded five-digit rendering used by `format!("{:05}", n)`: numbers
wider than five digits print in full. -/
def pad5 (n : Nat) : List Nat :=
  let ds := decDigits n
  let ds := if ds.length < 5 then List.replicate (5 - ds.length) '0' ++ ds else ds
  ds.map Char.toNat

/-- Marker row for one aligned block (`sam.rs`, `match_mismatch`): byte 124
(`|`) where the two bytes are equal and byte 88 (`X`) otherwise. -/
def match_mismatch (xs ys : List Nat) : List Nat :=
  (xs.zip ys).map (fun p => if p.1 = p.2 then 124 else 88)

/-- Mutable state of the `recover_alignment` loop: the three output rows and
the two sequence cursors. -/
structure RecState where
  seq1_with_gap : List Nat
  operations : List Nat
  seq2_with_gap : List Nat
  seq1idx : Nat
  seq2idx : Nat
deriving DecidableEq, Repr

/-- Loop body of `recover_alignment`.  Rust's slice `seq[i..i + l]` aborts
when out of range; here `take`/`drop` truncate instead, so the embedding
agrees with the source exactly on in-bounds cursors (the source's stated
precondition). -/
def recoverStep (seq1 seq2 : List Nat) (st : RecState) (op : Op) : RecState :=
  match op with
  | .Align l =>
    let x := (seq1.drop st.seq1idx).take l
    let y := (seq2.drop st.seq2idx).take l
    { st with
      seq1_with_gap := st.seq1_with_gap ++ x
      seq2_with_gap := st.seq2_with_gap ++ y
      operations := st.operations ++ match_mismatch x y
      seq1idx := st.seq1idx + l
      seq2idx := st.seq2idx + l }
  | .Deletion l =>
    { st with
      seq1_with_gap := st.seq1_with_gap ++ List.replicate l 45
      seq2_with_gap := st.seq2_with_gap ++ (seq2.drop st.seq2idx).take l
      operations := st.operations ++ List.replicate l 32
      seq2idx := st.seq2idx + l }
  | .Insertion l =>
    { st with
      seq1_with_gap := st.seq1_with_gap ++ (seq1.drop st.seq1idx).take l
      seq2_with_gap := st.seq2_with_gap ++ List.replicate l 45
      operations := st.operations ++ List.replicate l 32
      seq1idx := st.seq1idx + l }
  | _ => st

/-- Three-row alignment reconstruction (`sam.rs`, `recover_alignment`).
The source indexes `iter[0]` and unwraps `iter.last()`, aborting on an empty
operation sequence; that abort is modelled by `none`. -/
def recover_alignment (iter : List Op) (seq1 seq2 : List Nat) (pos : Nat) :
    Option (List Nat × List Nat × List Nat) :=
  match iter with
  | [] => none
  | op0 :: rest =>
    let head1 : Nat × List Nat :=
      match op0 with
      | .SoftClip l | .HardClip l =>
        (l, strBytes "[head " ++ pad5 l ++ strBytes " base]")
      | _ => (0, strBytes "[head 00000 base]")
    let seq2_header := strBytes "[head " ++ pad5 pos ++ strBytes " base]"
    let ops_header := List.replicate 17 32
    let st0 : RecState :=
      { seq1_with_gap := head1.2, operations := ops_header,
        seq2_with_gap := seq2_header, seq1idx := head1.1, seq2idx := pos - 1 }
    let st := iter.foldl (recoverStep seq1 seq2) st0
    let seq1_footer :=
      match rest.getLastD op0 with
      | .SoftClip l | .HardClip l =>
        strBytes "[tail " ++ pad5 l ++ strBytes " bese]"
      | _ => strBytes "[tail 00000 base]"
    let seq2_footer :=
      strBytes "[tail " ++ pad5 (seq2.length - st.seq2idx) ++ strBytes " base]"
    let ops_footer := List.replicate 17 32
    some (st.seq1_with_gap ++ seq1_footer, st.operations ++ ops_footer,
          st.seq2_with_gap ++ seq2_footer)

/-- Zipper merge of two position-keyed entry lists: the loop of
`sam.rs`, `Coverage::merge`.  Entries with equal positions have their depths
summed; the leftovers of the longer list are appended at the end. -/
def mergeCov : List (Nat × Nat) → List (Nat × Nat) → List (Nat × Nat)
  | [], ys => ys
  | x :: xs, [] => x :: xs
  | (pa, da) :: xs, (pb, db) :: ys =>
    if pa < pb then (pa, da) :: mergeCov xs ((pb, db) :: ys)
    else if pb < pa then (pb, db) :: mergeCov ((pa, da) :: xs) ys
    else (pa, da + db) :: mergeCov xs ys
termination_by a b => a.length + b.length

/-- Merge of two coverage tables (`sam.rs`, `Coverage::merge`).  The source
panics when the reference names differ; the panic is modelled by `none`. -/
def Coverage.merge (a b : Coverage) : Option Coverage :=
  if a.r_name = b.r_name then
    some { r_name := a.r_name, cov := mergeCov a.cov b.cov }
  else none

/-- Zipper merge of two reference-name-sorted coverage lists
(`sam.rs`, `merge_two_coverages`).  A name-mismatch panic inside
`Coverage::merge` propagates as `none`. -/
def merge_two_coverages : List Coverage → List Coverage → Option (List Coverage)
  | [], b => some b
  | a :: as_, [] => some (a :: as_)
  | a :: as_, b :: bs =>
    if a.r_name < b.r_name then
      (merge_two_coverages as_ (b :: bs)).map (a :: ·)
    else if b.r_name < a.r_name then
      (merge_two_coverages (a :: as_) bs).map (b :: ·)
    else
      (a.merge b).bind fun m => (merge_two_coverages as_ bs).map (m :: ·)
termination_by a b => a.length + b.length

/-! ### Derived definitions used by the proofs below -/

/-- Entry sequence of the coverage loop, described recursively: each
operation's block at the current cursor, cursors advancing by the
reference-consumed length. -/
def covEntries (c : Nat) : List Op → List (Nat × Nat)
  | [] => []
  | op :: rest => (covStep ([], c) op).1 ++ covEntries (covStep ([], c) op).2 rest

/-- Boolean test for the emitting operation kinds of the coverage loop. -/
def Op.isAlignOrMatch : Op → Bool
  | .Align _ | .Match _ => true
  | _ => false

/-- Position-key order on coverage entries. -/
abbrev keyLt (x y : Nat × Nat) : Prop := x.1 < y.1

/-- First-match lookup of a position in an entry list. -/
def covLookup (p : Nat) : List (Nat × Nat) → Option Nat
  | [] => none
  | (q, d) :: rest => if p = q then some d else covLookup p rest

/-- Pointwise combination of two optional depths: present positions pass
through, coinciding positions add. -/
def optAdd : Option Nat → Option Nat → Option Nat
  | none, y => y
  | some x, none => some x
  | some x, some y => some (x + y)

/-- Reference-name order on coverage tables. -/
abbrev nameLt (x y : Coverage) : Prop := x.r_name < y.r_name

/-- All member tables of a list have strictly position-sorted entries. -/
abbrev covSorted (l : List Coverage) : Prop :=
  ∀ x ∈ l, x.cov.Pairwise keyLt

/-- First-match lookup of a reference name in a coverage list. -/
def covlLookup (n : String) : List Coverage → Option (List (Nat × Nat))
  | [] => none
  | c :: rest => if n = c.r_name then some c.cov else covlLookup n rest

/-- Pointwise combination of two optional entry lists: present names pass
through, coinciding names merge. -/
def optMergeCovl :
    Option (List (Nat × Nat)) → Option (List (Nat × Nat)) →
      Option (List (Nat × Nat))
  | none, y => y
  | some x, none => some x
  | some x, some y => some (mergeCov x y)

end sam

/-! ## src/lasttab.rs : pairwise alignment records -/

namespace lasttab

/-- Direction of an alignment (`lasttab.rs`, `enum Strand`). -/
inductive Strand where
  | Forward : Strand
  | Reverse : Strand
deriving DecidableEq, Repr

/-- Alignment information for a single strand
(`lasttab.rs`, `struct AlignInfo`). -/
structure AlignInfo where
  seqname : String
  seqstart : Nat
  matchlen : Nat
  direction : Strand
  seqlen : Nat
deriving DecidableEq, Repr

/-- Forward-strand projection of the start coordinate
(`lasttab.rs`, `AlignInfo::seqstart_from_forward`). -/
def AlignInfo.seqstart_from_forward (info : AlignInfo) : Nat :=
  match info.direction with
  | .Forward => info.seqstart
  | .Reverse => info.seqlen - info.matchlen - info.seqstart

/-- Alignment operation of a TAB record (`lasttab.rs`, `enum Op`). -/
inductive Op where
  | Match : Nat → Op
  | Seq1In : Nat → Op
  | Seq2In : Nat → Op
deriving DecidableEq, Repr

/-- Split a character list on a separator character; the semantics of Rust's
`str::split` on a one-character pattern, character-list based so that the
kernel can evaluate it. -/
def splitChars (sep : Char) : List Char → List (List Char)
  | [] => [[]]
  | c :: rest =>
    match splitChars sep rest with
    | [] => [[]]
    | g :: gs => if c = sep then [] :: g :: gs else (c :: g) :: gs

/-- Parse a character list as a base-10 natural: the semantics of Rust's
`usize::from_str` on its digits-only core (empty or non-digit input fails). -/
def parseNatChars (cs : List Char) : Option Nat :=
  if cs = [] then none
  else if cs.all Char.isDigit then
    some (cs.foldl (fun n c => 10 * n + (c.toNat - '0'.toNat)) 0)
  else none

/-- Parse a character list as a signed decimal integer: the semantics of
Rust's `i64::from_str` (optional sign, then digits; overflow is out of
scope, see the header note on machine integers). -/
def parseIntChars (cs : List Char) : Option Int :=
  match cs with
  | '-' :: rest => (parseNatChars rest).map (fun n => -(n : Int))
  | '+' :: rest => (parseNatChars rest).map (fun n => (n : Int))
  | _ => (parseNatChars cs).map (fun n => (n : Int))

/-- Token decoder of the comma-separated pairwise notation
(`lasttab.rs`, `Op::from_string`).  The source pushes onto `res` and panics
on unparsable numbers; the panic is modelled by `none`. -/
def Op.from_string (res : List Op) (input : String) : Option (List Op) :=
  if input.data.contains ':' then
    match splitChars ':' input.data with
    | s1 :: s2 :: _ =>
      match parseNatChars s1, parseNatChars s2 with
      | some seq1, some seq2 =>
        some (res ++ (if seq1 ≠ 0 then [Op.Seq2In seq1] else [])
                  ++ (if seq2 ≠ 0 then [Op.Seq1In seq2] else []))
      | _, _ => none
    | _ => none
  else (parseNatChars input.data).map (fun n => res ++ [Op.Match n])

/-- A TAB-format alignment record (`lasttab.rs`, `struct LastTAB`).  The two
expectation scores are carried opaquely, as in the source. -/
structure LastTAB where
  seq1_information : AlignInfo
  seq2_information : AlignInfo
  score : Nat
  alignment : List Op
  eg2 : Float
  e : Float

/-- Accessor (`lasttab.rs`, `LastTAB::seq1_start_from_forward`). -/
def LastTAB.seq1_start_from_forward (t : LastTAB) : Nat :=
  t.seq1_information.seqstart_from_forward

/-- Accessor (`lasttab.rs`, `LastTAB::seq2_start_from_forward`). -/
def LastTAB.seq2_start_from_forward (t : LastTAB) : Nat :=
  t.seq2_information.seqstart_from_forward

/-- Accessor (`lasttab.rs`, `LastTAB::seq1_matchlen`). -/
def LastTAB.seq1_matchlen (t : LastTAB) : Nat := t.seq1_information.matchlen

/-- Accessor (`lasttab.rs`, `LastTAB::seq2_matchlen`). -/
def LastTAB.seq2_matchlen (t : LastTAB) : Nat := t.seq2_information.matchlen

/-- Derived forward end (`lasttab.rs`, `LastTAB::seq1_end_from_forward`). -/
def LastTAB.seq1_end_from_forward (t : LastTAB) : Nat :=
  t.seq1_start_from_forward + t.seq1_matchlen

/-- Derived forward end (`lasttab.rs`, `LastTAB::seq2_end_from_forward`). -/
def LastTAB.seq2_end_from_forward (t : LastTAB) : Nat :=
  t.seq2_start_from_forward + t.seq2_matchlen

/-- Modelled from the spec: the mapper-native record type `sam::Record`
consumed by the converter is declared in `lasttab.rs` via
`use crate::sam::Record` but is not under `src/`.  Per spec section 4.5 it
carries a query name, a reference name, a 1-based reference position, an
orientation flag, a decoded operation sequence and attribute tags, accessed
by `q_name()`, `r_name()`, `pos()`, `is_forward()`, `cigar()` and `attr()`. -/
structure Record where
  q_name : String
  r_name : String
  pos : Nat
  forward : Bool
  cigar : List sam.Op
  attr : List String
deriving Repr

/-- Loop of `lasttab.rs`, `try_from`, over the record's operations: the state
is the operation list built so far, the head clip and the tail clip.  A
`Skipped` or `Padding` operation aborts the whole conversion. -/
def convOps : List sam.Op → List Op × Nat × Nat →
    Except String (List Op × Nat × Nat)
  | [], st => .ok st
  | op :: rest, (aln, hc, tc) =>
    match op with
    | .Align l | .Match l | .Mismatch l => convOps rest (aln ++ [Op.Match l], hc, tc)
    | .Insertion l => convOps rest (aln ++ [Op.Seq1In l], hc, tc)
    | .Deletion l => convOps rest (aln ++ [Op.Seq2In l], hc, tc)
    | .SoftClip l | .HardClip l =>
      if hc = 0 then convOps rest (aln, l, tc) else convOps rest (aln, hc, l)
    | .Skipped _ => .error "Skipped in Cigar."
    | .Padding _ => .error "Padding in Cigar."

/-- Cross-format converter (`lasttab.rs`, `try_from`).  The reference-length
table (a `HashMap` in the source) is modelled as an association list. -/
def try_from (value : Record) (length : List (String × Nat)) :
    Except String LastTAB :=
  if value.pos = 0 then .error "Alignment Invalid"
  else
    match value.attr.find? (fun x => "AS".data.isPrefixOf x.data) with
    | none => .error "AS tag is not valid."
    | some tag =>
      match (splitChars ':' tag.data).get? 2 with
      | none => .error "AS tag does not have sufficient fields."
      | some f =>
        match parseIntChars f with
        | none => .error "Parsing fail."
        | some score0 =>
          let score : Nat := (max score0 0).toNat
          let eg2 : Float := 0
          let e : Float := 0
          let cigar := value.cigar
          match convOps cigar ([], 0, 0) with
          | .error msg => .error msg
          | .ok (alignment, head_clip, _tail_clip) =>
            let matchlen_1 :=
              (cigar.map fun op =>
                match op with
                | .Deletion l | .Align l | .Match l | .Mismatch l => l
                | _ => 0).sum
            match length.find? (fun kv => kv.1 = value.r_name) with
            | none => .error "Invalid Reference Name"
            | some kv =>
              let seq1_information : AlignInfo :=
                { seqname := value.r_name, seqstart := value.pos - 1,
                  matchlen := matchlen_1, direction := .Forward,
                  seqlen := kv.2 }
              let matchlen_2 :=
                (cigar.map fun op =>
                  match op with
                  | .Insertion l | .Align l | .Match l | .Mismatch l => l
                  | _ => 0).sum
              let total :=
                (cigar.map fun op =>
                  match op with
                  | .HardClip l | .SoftClip l | .Insertion l | .Align l
                  | .Match l | .Mismatch l => l
                  | _ => 0).sum
              let direction : Strand :=
                if value.forward then .Forward else .Reverse
              let seq2_information : AlignInfo :=
                { seqname := value.q_name, seqstart := head_clip,
                  matchlen := matchlen_2, direction := direction,
                  seqlen := total }
              .ok { score := score, alignment := alignment, eg2 := eg2,
                    e := e, seq1_information := seq1_information,
                    seq2_information := seq2_information }

/-! ### Derived definitions and concrete records used by the proofs below -/

/-- Clip lengths of an operation sequence, in order. -/
def clipLens (ops : List sam.Op) : List Nat :=
  ops.filterMap fun op =>
    match op with
    | .SoftClip l | .HardClip l => some l
    | _ => none

/-- Query-consumed tally of an operation sequence: the summand each
operation contributes to `matchlen_2` in `lasttab.rs`, `try_from`. -/
def queryTally (ops : List sam.Op) : Nat :=
  (ops.map fun op =>
    match op with
    | .Insertion l | .Align l | .Match l | .Mismatch l => l
    | _ => 0).sum

/-- First nonzero element of a list of clip lengths (0 when none). -/
def firstNonzero (ls : List Nat) : Nat :=
  (ls.dropWhile (fun l => l == 0)).headD 0

/-- Last element strictly after the first nonzero one (0 when none). -/
def lastAfterFirstNonzero (ls : List Nat) : Nat :=
  ((ls.dropWhile (fun l => l == 0)).drop 1).getLastD 0

/-- Head clip recorded by the converter's loop, characterized
independently: the first clip whose length is nonzero. -/
def headClipSpec (ops : List sam.Op) : Nat := firstNonzero (clipLens ops)

/-- Tail clip recorded by the converter's loop, characterized
independently: the last clip after the recorded head clip. -/
def tailClipSpec (ops : List sam.Op) : Nat :=
  lastAfterFirstNonzero (clipLens ops)

/-- The update the converter's loop applies to its clip state on each clip
operation: the head slot is written while it is still zero, the tail slot
afterwards. -/
def clipStep (p : Nat × Nat) (l : Nat) : Nat × Nat :=
  if p.1 = 0 then (l, p.2) else (p.1, l)

/-- A mapper record whose only clip is a trailing one (operations
`5M 3S`), with a valid score tag and a known reference. -/
def c3Rec : Record :=
  { q_name := "q", r_name := "ref", pos := 1, forward := true,
    cigar := [.Align 5, .SoftClip 3], attr := ["AS:i:100"] }

/-- Reference-length table for `c3Rec`. -/
def c3Len : List (String × Nat) := [("ref", 100)]

/-- The record `try_from` produces for `c3Rec`: the trailing clip is
recorded as the head clip, so the query-side start is 3. -/
def c3Lt : LastTAB :=
  { seq1_information :=
      { seqname := "ref", seqstart := 0, matchlen := 5,
        direction := .Forward, seqlen := 100 },
    seq2_information :=
      { seqname := "q", seqstart := 3, matchlen := 5,
        direction := .Forward, seqlen := 8 },
    score := 100, alignment := [.Match 5], eg2 := 0, e := 0 }

end lasttab

/-! ## Concrete records and tables used by claim statements -/

/-- The reverse-strand side of the sample record of `lasttab.rs`'s test:
start 4, match length 527, total length 1125. -/
def c2Info : lasttab.AlignInfo :=
  { seqname := "m54113_160913_184949/5570667/0_1125", seqstart := 4,
    matchlen := 527, direction := .Reverse, seqlen := 1125 }

/-- A TAB record whose query side is `c2Info`. -/
def c2Tab : lasttab.LastTAB :=
  { seq1_information :=
      { seqname := "tig00000001", seqstart := 98045, matchlen := 539,
        direction := .Forward, seqlen := 261026 },
    seq2_information := c2Info, score := 1035, alignment := [],
    eg2 := 0, e := 0 }

/-- Three one-name coverage tables for the C1 witness. -/
def c1CovA : sam.Coverage := { r_name := "r", cov := [(1, 2), (3, 1)] }

/-- Second table of the C1 witness. -/
def c1CovB : sam.Coverage := { r_name := "r", cov := [(1, 1), (2, 5)] }

/-- Third table of the C1 witness. -/
def c1CovC : sam.Coverage := { r_name := "r", cov := [(3, 4)] }

/-- First coverage list of the C1 witness. -/
def c1ListA : List sam.Coverage := [{ r_name := "r1", cov := [(1, 1)] }]

/-- Second coverage list of the C1 witness. -/
def c1ListB : List sam.Coverage := [{ r_name := "r2", cov := [(2, 3)] }]

/-- Third coverage list of the C1 witness. -/
def c1ListC : List sam.Coverage := [{ r_name := "r1", cov := [(5, 1)] }]

/-- A record with mapped position 0 whose CIGAR still contains a Match run:
`Sam::to_coverage` has no position check, so this yields entries. -/
def c5Sam : sam.Sam :=
  { q_name := "q", flag := 0, r_name := "r", pos := 0, mapq := 60,
    cigar_str := "5M", rnext := "*", pnext := 0, tlen := 0, seq := "",
    qual := [], attr := none }

/-- A record with mapped position 0 whose operation sequence has no
Align/Match run. -/
def c5wSam : sam.Sam :=
  { q_name := "q", flag := 0, r_name := "r", pos := 0, mapq := 60,
    cigar_str := "3D2I", rnext := "*", pnext := 0, tlen := 0, seq := "",
    qual := [], attr := none }

/-- A mapped record at position 2 with CIGAR `2M`. -/
def c8Sam : sam.Sam :=
  { q_name := "q", flag := 0, r_name := "r", pos := 2, mapq := 60,
    cigar_str := "2M", rnext := "*", pnext := 0, tlen := 0, seq := "",
    qual := [], attr := none }

/-- A mapped record whose CIGAR `2M3X4M` has a Mismatch run between two
Align runs. -/
def c10Sam : sam.Sam :=
  { q_name := "q", flag := 0, r_name := "r", pos := 1, mapq := 60,
    cigar_str := "2M3X4M", rnext := "*", pnext := 0, tlen := 0, seq := "",
    qual := [], attr := none }

/-! ## Helper lemmas about the `to_coverage` loop -/

namespace sam

/-- Entry block emitted by a single loop step of `Sam::to_coverage`. -/
theorem covStep_fst (acc : List (Nat × Nat)) (c : Nat) (op : Op) :
    (covStep (acc, c) op).1 = acc ++ (covStep ([], c) op).1 := by
  cases op <;> simp [covStep]

/-- Cursor advance of a single loop step equals the operation's
reference-consumed contribution. -/
theorem covStep_snd (acc : List (Nat × Nat)) (c : Nat) (op : Op) :
    (covStep (acc, c) op).2 = c + refConsumedLen [op] := by
  cases op <;> simp [covStep, refConsumedLen]

/-- The imperative fold of `Sam::to_coverage` computes `covEntries` and
advances the cursor by the reference-consumed length. -/
theorem covFold_eq (ops : List Op) (acc : List (Nat × Nat)) (c : Nat) :
    ops.foldl covStep (acc, c) =
      (acc ++ covEntries c ops, c + refConsumedLen ops) := by
  induction ops generalizing acc c with
  | nil => simp [covEntries, refConsumedLen]
  | cons op rest ih =>
    simp only [List.foldl_cons]
    rw [← @Prod.mk.eta _ _ (covStep (acc, c) op), ih, covStep_fst, covStep_snd,
      covEntries, List.append_assoc]
    have : refConsumedLen (op :: rest) = refConsumedLen [op] + refConsumedLen rest := by
      simp [refConsumedLen]
    rw [this, covStep_snd, ← Nat.add_assoc]

/-- Entries of the coverage loop over a concatenation split at the
accumulated cursor. -/
theorem covEntries_append (l1 l2 : List Op) (c : Nat) :
    covEntries c (l1 ++ l2) =
      covEntries c l1 ++ covEntries (c + refConsumedLen l1) l2 := by
  induction l1 generalizing c with
  | nil => simp [covEntries, refConsumedLen]
  | cons op rest ih =>
    have hsplit : refConsumedLen (op :: rest) =
        refConsumedLen [op] + refConsumedLen rest := by
      simp [refConsumedLen]
    simp only [List.cons_append, covEntries, covStep_snd, List.append_eq, ih,
      List.append_assoc, hsplit, Nat.add_assoc]

/-- Every position emitted by the coverage loop lies in the half-open window
from the initial cursor to the cursor plus the reference-consumed length. -/
theorem covEntries_mem {ops : List Op} {c p d : Nat}
    (h : (p, d) ∈ covEntries c ops) :
    c ≤ p ∧ p < c + refConsumedLen ops := by
  induction ops generalizing c with
  | nil => simp [covEntries] at h
  | cons op rest ih =>
    rw [covEntries, List.mem_append] at h
    have hsplit : refConsumedLen (op :: rest) =
        refConsumedLen [op] + refConsumedLen rest := by
      simp [refConsumedLen]
    rcases h with h | h
    · cases op <;> simp [covStep] at h
      case Align =>
        obtain ⟨i, hi, rfl, rfl⟩ := h
        simp [hsplit, refConsumedLen]
        omega
      case Match =>
        obtain ⟨i, hi, rfl, rfl⟩ := h
        simp [hsplit, refConsumedLen]
        omega
    · have : (covStep ([], c) op).2 ≤ p ∧
          p < (covStep ([], c) op).2 + refConsumedLen rest := ih h
      rw [covStep_snd] at this
      rw [hsplit]
      omega

/-- The coverage table of a record is `covEntries` started at `pos`. -/
theorem to_coverage_cov (s : Sam) :
    (s.to_coverage).cov = covEntries s.pos s.cigar := by
  rw [Sam.to_coverage, covFold_eq]
  simp

end sam

/-! ## Helper lemmas about the coverage merge (for C1) -/

namespace sam

theorem optAdd_none_right (x : Option Nat) : optAdd x none = x := by
  cases x <;> rfl

theorem optAdd_comm (x y : Option Nat) : optAdd x y = optAdd y x := by
  cases x <;> cases y <;> simp [optAdd, Nat.add_comm]

theorem optAdd_assoc (x y z : Option Nat) :
    optAdd (optAdd x y) z = optAdd x (optAdd y z) := by
  cases x <;> cases y <;> cases z <;> simp [optAdd, Nat.add_assoc]

/-- Every key of a zipper merge is a key of one of the inputs. -/
theorem mergeCov_keys (a b : List (Nat × Nat)) :
    ∀ e ∈ mergeCov a b,
      (∃ d, (e.1, d) ∈ a) ∨ (∃ d, (e.1, d) ∈ b) := by
  induction a, b using mergeCov.induct with
  | case1 ys => exact fun e he => Or.inr ⟨e.2, by simpa [mergeCov] using he⟩
  | case2 x xs => exact fun e he => Or.inl ⟨e.2, by simpa [mergeCov] using he⟩
  | case3 pa da xs pb db ys hlt ih =>
    intro e he
    rw [mergeCov, if_pos hlt] at he
    rcases List.mem_cons.mp he with rfl | he
    · exact Or.inl ⟨da, by simp⟩
    · rcases ih e he with ⟨d, hd⟩ | ⟨d, hd⟩
      · exact Or.inl ⟨d, List.mem_cons_of_mem _ hd⟩
      · exact Or.inr ⟨d, hd⟩
  | case4 pa da xs pb db ys hlt hgt ih =>
    intro e he
    rw [mergeCov, if_neg hlt, if_pos hgt] at he
    rcases List.mem_cons.mp he with rfl | he
    · exact Or.inr ⟨db, by simp⟩
    · rcases ih e he with ⟨d, hd⟩ | ⟨d, hd⟩
      · exact Or.inl ⟨d, hd⟩
      · exact Or.inr ⟨d, List.mem_cons_of_mem _ hd⟩
  | case5 pa da xs pb db ys hlt hgt ih =>
    intro e he
    rw [mergeCov, if_neg hlt, if_neg hgt] at he
    rcases List.mem_cons.mp he with rfl | he
    · exact Or.inl ⟨da, by simp⟩
    · rcases ih e he with ⟨d, hd⟩ | ⟨d, hd⟩
      · exact Or.inl ⟨d, List.mem_cons_of_mem _ hd⟩
      · exact Or.inr ⟨d, List.mem_cons_of_mem _ hd⟩

/-- The zipper merge of two strictly position-sorted entry lists is again
strictly position-sorted. -/
theorem mergeCov_pairwise {a b : List (Nat × Nat)}
    (ha : a.Pairwise keyLt) (hb : b.Pairwise keyLt) :
    (mergeCov a b).Pairwise keyLt := by
  induction a, b using mergeCov.induct with
  | case1 ys => simpa [mergeCov] using hb
  | case2 x xs => simpa [mergeCov] using ha
  | case3 pa da xs pb db ys hlt ih =>
    rw [mergeCov, if_pos hlt]
    rw [List.pairwise_cons] at ha
    refine List.Pairwise.cons ?_ (ih ha.2 hb)
    intro e he
    rcases mergeCov_keys _ _ e he with ⟨d, hd⟩ | ⟨d, hd⟩
    · exact ha.1 (e.1, d) hd
    · rcases List.mem_cons.mp hd with heq | hd
      · have : e.1 = pb := congrArg Prod.fst heq
        simpa [keyLt, this] using hlt
      · have := (List.pairwise_cons.mp hb).1 (e.1, d) hd
        simp only [keyLt] at this ⊢
        omega
  | case4 pa da xs pb db ys hlt hgt ih =>
    rw [mergeCov, if_neg hlt, if_pos hgt]
    rw [List.pairwise_cons] at hb
    refine List.Pairwise.cons ?_ (ih ha hb.2)
    intro e he
    rcases mergeCov_keys _ _ e he with ⟨d, hd⟩ | ⟨d, hd⟩
    · rcases List.mem_cons.mp hd with heq | hd
      · have : e.1 = pa := congrArg Prod.fst heq
        simpa [keyLt, this] using hgt
      · have := (List.pairwise_cons.mp ha).1 (e.1, d) hd
        simp only [keyLt] at this ⊢
        omega
    · exact hb.1 (e.1, d) hd
  | case5 pa da xs pb db ys hlt hgt ih =>
    have hpp : pa = pb := by omega
    subst hpp
    rw [mergeCov, if_neg hlt, if_neg hgt]
    rw [List.pairwise_cons] at ha hb
    refine List.Pairwise.cons ?_ (ih ha.2 hb.2)
    intro e he
    rcases mergeCov_keys _ _ e he with ⟨d, hd⟩ | ⟨d, hd⟩
    · have := ha.1 (e.1, d) hd
      simp only [keyLt] at this ⊢
      omega
    · have := hb.1 (e.1, d) hd
      simp only [keyLt] at this ⊢
      omega

/-- A position below every key of a list looks up to nothing. -/
theorem covLookup_eq_none {p : Nat} {l : List (Nat × Nat)}
    (h : ∀ e ∈ l, p ≠ e.1) : covLookup p l = none := by
  induction l with
  | nil => rfl
  | cons x rest ih =>
    rw [show x = (x.1, x.2) from rfl, covLookup,
      if_neg (h x (by simp))]
    exact ih fun e he => h e (List.mem_cons_of_mem _ he)

/-- A successful lookup returns an entry of the list. -/
theorem covLookup_mem {p : Nat} {l : List (Nat × Nat)} {d : Nat}
    (h : covLookup p l = some d) : (p, d) ∈ l := by
  induction l with
  | nil => exact absurd h (by simp [covLookup])
  | cons x rest ih =>
    rw [show x = (x.1, x.2) from rfl, covLookup] at h
    split at h
    · rename_i heq
      injection h with h'
      subst heq
      subst h'
      simp
    · exact List.mem_cons_of_mem _ (ih h)

/-- Lookup in the zipper merge of two strictly sorted lists is the
pointwise combination of the lookups. -/
theorem mergeCov_lookup {a b : List (Nat × Nat)}
    (ha : a.Pairwise keyLt) (hb : b.Pairwise keyLt) (p : Nat) :
    covLookup p (mergeCov a b) = optAdd (covLookup p a) (covLookup p b) := by
  induction a, b using mergeCov.induct with
  | case1 ys => simp [mergeCov, covLookup, optAdd]
  | case2 x xs => simp [mergeCov, covLookup, optAdd_none_right]
  | case3 pa da xs pb db ys hlt ih =>
    rw [mergeCov, if_pos hlt, covLookup, covLookup]
    by_cases hp : p = pa
    · subst hp
      rw [if_pos rfl, if_pos rfl]
      have hnone : covLookup p ((pb, db) :: ys) = none := by
        apply covLookup_eq_none
        intro e he
        rcases List.mem_cons.mp he with rfl | he
        · simpa using Nat.ne_of_lt hlt
        · have := (List.pairwise_cons.mp hb).1 e he
          simp only [keyLt] at this
          omega
      rw [hnone, optAdd_none_right]
    · rw [if_neg hp, if_neg hp, ih (List.pairwise_cons.mp ha).2 hb]
  | case4 pa da xs pb db ys hlt hgt ih =>
    rw [mergeCov, if_neg hlt, if_pos hgt]
    by_cases hp : p = pb
    · subst hp
      have hnone : covLookup p ((pa, da) :: xs) = none := by
        apply covLookup_eq_none
        intro e he
        rcases List.mem_cons.mp he with rfl | he
        · simpa using Nat.ne_of_lt hgt
        · have := (List.pairwise_cons.mp ha).1 e he
          simp only [keyLt] at this
          omega
      rw [covLookup, if_pos rfl, hnone, covLookup, if_pos rfl]
      rfl
    · have hskip : covLookup p ((pb, db) :: ys) = covLookup p ys := by
        rw [covLookup, if_neg hp]
      rw [covLookup, if_neg hp, ih ha (List.pairwise_cons.mp hb).2, hskip]
  | case5 pa da xs pb db ys hlt hgt ih =>
    have hpp : pa = pb := by omega
    subst hpp
    rw [mergeCov, if_neg hlt, if_neg hgt, covLookup, covLookup, covLookup]
    by_cases hp : p = pa
    · subst hp
      rw [if_pos rfl, if_pos rfl, if_pos rfl]
      rfl
    · rw [if_neg hp, if_neg hp, if_neg hp,
        ih (List.pairwise_cons.mp ha).2 (List.pairwise_cons.mp hb).2]

/-- Two strictly position-sorted entry lists with the same lookup function
are equal. -/
theorem covLookup_ext {l1 : List (Nat × Nat)} :
    ∀ {l2}, l1.Pairwise keyLt → l2.Pairwise keyLt →
      (∀ p, covLookup p l1 = covLookup p l2) → l1 = l2 := by
  induction l1 with
  | nil =>
    intro l2 _ _ h
    cases l2 with
    | nil => rfl
    | cons y t2 =>
      obtain ⟨p2, d2⟩ := y
      have hy : covLookup p2 ((p2, d2) :: t2) = some d2 := by
        rw [covLookup, if_pos rfl]
      have h0 : covLookup p2 ([] : List (Nat × Nat)) = none := rfl
      have := h p2
      rw [h0, hy] at this
      exact absurd this (by simp)
  | cons x t1 ih =>
    intro l2 h1 h2 h
    cases l2 with
    | nil =>
      obtain ⟨p1, d1⟩ := x
      have hx : covLookup p1 ((p1, d1) :: t1) = some d1 := by
        rw [covLookup, if_pos rfl]
      have h0 : covLookup p1 ([] : List (Nat × Nat)) = none := rfl
      have := h p1
      rw [h0, hx] at this
      exact absurd this (by simp)
    | cons y t2 =>
      obtain ⟨p1, d1⟩ := x
      obtain ⟨p2, d2⟩ := y
      have hkey : p1 = p2 := by
        by_contra hne
        have hx := h p1
        rw [covLookup, if_pos rfl, covLookup, if_neg hne] at hx
        have hmem1 := covLookup_mem hx.symm
        have hlt1 := (List.pairwise_cons.mp h2).1 _ hmem1
        have hy := h p2
        rw [covLookup, if_neg (fun hh => hne hh.symm), covLookup,
          if_pos rfl] at hy
        have hmem2 := covLookup_mem hy
        have hlt2 := (List.pairwise_cons.mp h1).1 _ hmem2
        simp only [keyLt] at hlt1 hlt2
        omega
      subst hkey
      have hd : d1 = d2 := by
        have := h p1
        rw [covLookup, if_pos rfl, covLookup, if_pos rfl] at this
        injection this
      subst hd
      have htail : ∀ p, covLookup p t1 = covLookup p t2 := by
        intro p
        by_cases hp : p = p1
        · subst hp
          rw [covLookup_eq_none, covLookup_eq_none]
          · intro e he
            have := (List.pairwise_cons.mp h2).1 e he
            simp only [keyLt] at this
            omega
          · intro e he
            have := (List.pairwise_cons.mp h1).1 e he
            simp only [keyLt] at this
            omega
        · have := h p
          rw [covLookup, if_neg hp, covLookup, if_neg hp] at this
          exact this
      exact congrArg _ (ih (List.pairwise_cons.mp h1).2
        (List.pairwise_cons.mp h2).2 htail)

/-- The zipper merge of strictly sorted entry lists is commutative. -/
theorem mergeCov_comm {a b : List (Nat × Nat)}
    (ha : a.Pairwise keyLt) (hb : b.Pairwise keyLt) :
    mergeCov a b = mergeCov b a := by
  refine covLookup_ext (mergeCov_pairwise ha hb) (mergeCov_pairwise hb ha)
    fun p => ?_
  rw [mergeCov_lookup ha hb, mergeCov_lookup hb ha, optAdd_comm]

/-- The zipper merge of strictly sorted entry lists is associative. -/
theorem mergeCov_assoc {a b c : List (Nat × Nat)}
    (ha : a.Pairwise keyLt) (hb : b.Pairwise keyLt) (hc : c.Pairwise keyLt) :
    mergeCov (mergeCov a b) c = mergeCov a (mergeCov b c) := by
  refine covLookup_ext
    (mergeCov_pairwise (mergeCov_pairwise ha hb) hc)
    (mergeCov_pairwise ha (mergeCov_pairwise hb hc)) fun p => ?_
  rw [mergeCov_lookup (mergeCov_pairwise ha hb) hc,
    mergeCov_lookup ha (mergeCov_pairwise hb hc),
    mergeCov_lookup ha hb, mergeCov_lookup hb hc, optAdd_assoc]

/-! ### The reference-name level merge (for C1) -/

/-- A same-name merge succeeds and zips the entry lists. -/
theorem Coverage.merge_eq_some {a b : Coverage} (h : a.r_name = b.r_name) :
    a.merge b = some { r_name := a.r_name, cov := mergeCov a.cov b.cov } := by
  rw [Coverage.merge, if_pos h]

/-- The name-level zipper merge never hits the name-mismatch panic: in its
equal branch the two names coincide. -/
theorem mtc_some (a b : List Coverage) :
    ∃ r, merge_two_coverages a b = some r := by
  induction a, b using merge_two_coverages.induct with
  | case1 b => exact ⟨b, by rw [merge_two_coverages]⟩
  | case2 a as_ => exact ⟨a :: as_, by rw [merge_two_coverages]⟩
  | case3 a as_ b bs hlt ih =>
    obtain ⟨r, hr⟩ := ih
    exact ⟨a :: r, by rw [merge_two_coverages, if_pos hlt, hr]; rfl⟩
  | case4 a as_ b bs hlt hgt ih =>
    obtain ⟨r, hr⟩ := ih
    exact ⟨b :: r, by rw [merge_two_coverages, if_neg hlt, if_pos hgt, hr]; rfl⟩
  | case5 a as_ b bs hlt hgt ih =>
    obtain ⟨r, hr⟩ := ih
    have hname : a.r_name = b.r_name := le_antisymm (le_of_not_lt hgt) (le_of_not_lt hlt)
    exact ⟨{ r_name := a.r_name, cov := mergeCov a.cov b.cov } :: r, by
      rw [merge_two_coverages, if_neg hlt, if_neg hgt,
        Coverage.merge_eq_some hname, Option.some_bind, hr]
      rfl⟩

/-- Every name of a name-level merge is a name of one of the inputs. -/
theorem mtc_names (a b : List Coverage) :
    ∀ r, merge_two_coverages a b = some r →
      ∀ e ∈ r, (∃ x ∈ a, x.r_name = e.r_name) ∨ (∃ x ∈ b, x.r_name = e.r_name) := by
  induction a, b using merge_two_coverages.induct with
  | case1 b =>
    intro r hr e he
    rw [merge_two_coverages] at hr
    injection hr with hr
    subst hr
    exact Or.inr ⟨e, he, rfl⟩
  | case2 a as_ =>
    intro r hr e he
    rw [merge_two_coverages] at hr
    injection hr with hr
    subst hr
    exact Or.inl ⟨e, he, rfl⟩
  | case3 a as_ b bs hlt ih =>
    intro r hr e he
    rw [merge_two_coverages, if_pos hlt] at hr
    rcases Option.map_eq_some'.mp hr with ⟨r', hr', rfl⟩
    rcases List.mem_cons.mp he with rfl | he
    · exact Or.inl ⟨e, by simp⟩
    · rcases ih r' hr' e he with ⟨x, hx, hn⟩ | ⟨x, hx, hn⟩
      · exact Or.inl ⟨x, List.mem_cons_of_mem _ hx, hn⟩
      · exact Or.inr ⟨x, hx, hn⟩
  | case4 a as_ b bs hlt hgt ih =>
    intro r hr e he
    rw [merge_two_coverages, if_neg hlt, if_pos hgt] at hr
    rcases Option.map_eq_some'.mp hr with ⟨r', hr', rfl⟩
    rcases List.mem_cons.mp he with rfl | he
    · exact Or.inr ⟨e, by simp⟩
    · rcases ih r' hr' e he with ⟨x, hx, hn⟩ | ⟨x, hx, hn⟩
      · exact Or.inl ⟨x, hx, hn⟩
      · exact Or.inr ⟨x, List.mem_cons_of_mem _ hx, hn⟩
  | case5 a as_ b bs hlt hgt ih =>
    intro r hr e he
    have hname : a.r_name = b.r_name := le_antisymm (le_of_not_lt hgt) (le_of_not_lt hlt)
    rw [merge_two_coverages, if_neg hlt, if_neg hgt,
      Coverage.merge_eq_some hname, Option.some_bind] at hr
    rcases Option.map_eq_some'.mp hr with ⟨r', hr', rfl⟩
    rcases List.mem_cons.mp he with rfl | he
    · exact Or.inl ⟨a, by simp⟩
    · rcases ih r' hr' e he with ⟨x, hx, hn⟩ | ⟨x, hx, hn⟩
      · exact Or.inl ⟨x, List.mem_cons_of_mem _ hx, hn⟩
      · exact Or.inr ⟨x, List.mem_cons_of_mem _ hx, hn⟩

/-- The name-level merge of two name-sorted lists is name-sorted. -/
theorem mtc_pairwise {a b : List Coverage}
    (ha : a.Pairwise nameLt) (hb : b.Pairwise nameLt) :
    ∀ r, merge_two_coverages a b = some r → r.Pairwise nameLt := by
  induction a, b using merge_two_coverages.induct with
  | case1 b =>
    intro r hr
    rw [merge_two_coverages] at hr
    injection hr with hr
    subst hr
    exact hb
  | case2 a as_ =>
    intro r hr
    rw [merge_two_coverages] at hr
    injection hr with hr
    subst hr
    exact ha
  | case3 a as_ b bs hlt ih =>
    intro r hr
    rw [merge_two_coverages, if_pos hlt] at hr
    rcases Option.map_eq_some'.mp hr with ⟨r', hr', rfl⟩
    rw [List.pairwise_cons] at ha
    refine List.Pairwise.cons ?_ (ih ha.2 hb r' hr')
    intro e he
    rcases mtc_names _ _ r' hr' e he with ⟨x, hx, hn⟩ | ⟨x, hx, hn⟩
    · have := ha.1 x hx
      simp only [nameLt] at this ⊢
      rw [← hn]
      exact this
    · rcases List.mem_cons.mp hx with rfl | hx
      · simpa [nameLt, ← hn] using hlt
      · have := (List.pairwise_cons.mp hb).1 x hx
        simp only [nameLt] at this ⊢
        rw [← hn]
        exact lt_trans hlt this
  | case4 a as_ b bs hlt hgt ih =>
    intro r hr
    rw [merge_two_coverages, if_neg hlt, if_pos hgt] at hr
    rcases Option.map_eq_some'.mp hr with ⟨r', hr', rfl⟩
    rw [List.pairwise_cons] at hb
    refine List.Pairwise.cons ?_ (ih ha hb.2 r' hr')
    intro e he
    rcases mtc_names _ _ r' hr' e he with ⟨x, hx, hn⟩ | ⟨x, hx, hn⟩
    · rcases List.mem_cons.mp hx with rfl | hx
      · simpa [nameLt, ← hn] using hgt
      · have := (List.pairwise_cons.mp ha).1 x hx
        simp only [nameLt] at this ⊢
        rw [← hn]
        exact lt_trans hgt this
    · have := hb.1 x hx
      simp only [nameLt] at this ⊢
      rw [← hn]
      exact this
  | case5 a as_ b bs hlt hgt ih =>
    intro r hr
    have hname : a.r_name = b.r_name := le_antisymm (le_of_not_lt hgt) (le_of_not_lt hlt)
    rw [merge_two_coverages, if_neg hlt, if_neg hgt,
      Coverage.merge_eq_some hname, Option.some_bind] at hr
    rcases Option.map_eq_some'.mp hr with ⟨r', hr', rfl⟩
    rw [List.pairwise_cons] at ha hb
    refine List.Pairwise.cons ?_ (ih ha.2 hb.2 r' hr')
    intro e he
    rcases mtc_names _ _ r' hr' e he with ⟨x, hx, hn⟩ | ⟨x, hx, hn⟩
    · have := ha.1 x hx
      simp only [nameLt] at this ⊢
      rw [← hn]
      exact this
    · have := hb.1 x hx
      simp only [nameLt] at this ⊢
      rw [← hn]
      rw [hname]
      exact this

/-- The name-level merge preserves position-sortedness of every member
table. -/
theorem mtc_covSorted {a b : List Coverage}
    (ha : covSorted a) (hb : covSorted b) :
    ∀ r, merge_two_coverages a b = some r → covSorted r := by
  induction a, b using merge_two_coverages.induct with
  | case1 b =>
    intro r hr
    rw [merge_two_coverages] at hr
    injection hr with hr
    subst hr
    exact hb
  | case2 a as_ =>
    intro r hr
    rw [merge_two_coverages] at hr
    injection hr with hr
    subst hr
    exact ha
  | case3 a as_ b bs hlt ih =>
    intro r hr
    rw [merge_two_coverages, if_pos hlt] at hr
    rcases Option.map_eq_some'.mp hr with ⟨r', hr', rfl⟩
    intro x hx
    rcases List.mem_cons.mp hx with rfl | hx
    · exact ha x (by simp)
    · exact ih (fun y hy => ha y (List.mem_cons_of_mem _ hy)) hb r' hr' x hx
  | case4 a as_ b bs hlt hgt ih =>
    intro r hr
    rw [merge_two_coverages, if_neg hlt, if_pos hgt] at hr
    rcases Option.map_eq_some'.mp hr with ⟨r', hr', rfl⟩
    intro x hx
    rcases List.mem_cons.mp hx with rfl | hx
    · exact hb x (by simp)
    · exact ih ha (fun y hy => hb y (List.mem_cons_of_mem _ hy)) r' hr' x hx
  | case5 a as_ b bs hlt hgt ih =>
    intro r hr
    have hname : a.r_name = b.r_name := le_antisymm (le_of_not_lt hgt) (le_of_not_lt hlt)
    rw [merge_two_coverages, if_neg hlt, if_neg hgt,
      Coverage.merge_eq_some hname, Option.some_bind] at hr
    rcases Option.map_eq_some'.mp hr with ⟨r', hr', rfl⟩
    intro x hx
    rcases List.mem_cons.mp hx with rfl | hx
    · exact mergeCov_pairwise (ha a (by simp)) (hb b (by simp))
    · exact ih (fun y hy => ha y (List.mem_cons_of_mem _ hy))
        (fun y hy => hb y (List.mem_cons_of_mem _ hy)) r' hr' x hx

theorem optMergeCovl_none_right (x : Option (List (Nat × Nat))) :
    optMergeCovl x none = x := by
  cases x <;> rfl

/-- A name below every name of a list looks up to nothing. -/
theorem covlLookup_eq_none {n : String} {l : List Coverage}
    (h : ∀ x ∈ l, n ≠ x.r_name) : covlLookup n l = none := by
  induction l with
  | nil => rfl
  | cons c rest ih =>
    rw [covlLookup, if_neg (h c (by simp))]
    exact ih fun x hx => h x (List.mem_cons_of_mem _ hx)

/-- A successful lookup returns a member table carrying the looked-up
name. -/
theorem covlLookup_mem {n : String} {l : List Coverage} {cv : List (Nat × Nat)}
    (h : covlLookup n l = some cv) :
    ({ r_name := n, cov := cv } : Coverage) ∈ l := by
  induction l with
  | nil => exact absurd h (by simp [covlLookup])
  | cons c rest ih =>
    rw [covlLookup] at h
    split at h
    · rename_i heq
      injection h with h'
      subst heq
      subst h'
      simp
    · exact List.mem_cons_of_mem _ (ih h)

/-- The table a lookup returns is position-sorted when the list satisfies
the member-sortedness invariant. -/
theorem covlLookup_sorted {n : String} {l : List Coverage}
    {cv : List (Nat × Nat)} (hs : covSorted l)
    (h : covlLookup n l = some cv) : cv.Pairwise keyLt :=
  hs _ (covlLookup_mem h)

/-- Lookup in the name-level merge of two name-sorted lists is the
pointwise combination of the lookups. -/
theorem mtc_lookup {a b : List Coverage}
    (ha : a.Pairwise nameLt) (hb : b.Pairwise nameLt) :
    ∀ r, merge_two_coverages a b = some r → ∀ n,
      covlLookup n r = optMergeCovl (covlLookup n a) (covlLookup n b) := by
  induction a, b using merge_two_coverages.induct with
  | case1 b =>
    intro r hr n
    rw [merge_two_coverages] at hr
    injection hr with hr
    subst hr
    simp [covlLookup, optMergeCovl]
  | case2 a as_ =>
    intro r hr n
    rw [merge_two_coverages] at hr
    injection hr with hr
    subst hr
    rw [show covlLookup n ([] : List Coverage) = none from rfl,
      optMergeCovl_none_right]
  | case3 a as_ b bs hlt ih =>
    intro r hr n
    rw [merge_two_coverages, if_pos hlt] at hr
    rcases Option.map_eq_some'.mp hr with ⟨r', hr', rfl⟩
    by_cases hn : n = a.r_name
    · have hnone : covlLookup n (b :: bs) = none := by
        apply covlLookup_eq_none
        intro x hx
        rcases List.mem_cons.mp hx with rfl | hx
        · rw [hn]
          exact ne_of_lt hlt
        · have := (List.pairwise_cons.mp hb).1 x hx
          simp only [nameLt] at this
          rw [hn]
          exact ne_of_lt (lt_trans hlt this)
      rw [covlLookup, if_pos hn, covlLookup, if_pos hn, hnone,
        optMergeCovl_none_right]
    · rw [covlLookup, if_neg hn, covlLookup, if_neg hn,
        ih (List.pairwise_cons.mp ha).2 hb r' hr' n]
  | case4 a as_ b bs hlt hgt ih =>
    intro r hr n
    rw [merge_two_coverages, if_neg hlt, if_pos hgt] at hr
    rcases Option.map_eq_some'.mp hr with ⟨r', hr', rfl⟩
    by_cases hn : n = b.r_name
    · have hnone : covlLookup n (a :: as_) = none := by
        apply covlLookup_eq_none
        intro x hx
        rcases List.mem_cons.mp hx with rfl | hx
        · rw [hn]
          exact ne_of_lt hgt
        · have := (List.pairwise_cons.mp ha).1 x hx
          simp only [nameLt] at this
          rw [hn]
          exact ne_of_lt (lt_trans hgt this)
      rw [covlLookup, if_pos hn, hnone, covlLookup, if_pos hn]
      rfl
    · have hskip : covlLookup n (b :: bs) = covlLookup n bs := by
        rw [covlLookup, if_neg hn]
      rw [covlLookup, if_neg hn, ih ha (List.pairwise_cons.mp hb).2 r' hr' n,
        hskip]
  | case5 a as_ b bs hlt hgt ih =>
    intro r hr n
    have hname : a.r_name = b.r_name :=
      le_antisymm (le_of_not_lt hgt) (le_of_not_lt hlt)
    rw [merge_two_coverages, if_neg hlt, if_neg hgt,
      Coverage.merge_eq_some hname, Option.some_bind] at hr
    rcases Option.map_eq_some'.mp hr with ⟨r', hr', rfl⟩
    by_cases hn : n = a.r_name
    · rw [covlLookup, if_pos hn, covlLookup, if_pos hn, covlLookup,
        if_pos (hn.trans hname)]
      rfl
    · have hn' : ¬n = b.r_name := fun hh => hn (hh.trans hname.symm)
      rw [covlLookup, if_neg hn, covlLookup, if_neg hn, covlLookup,
        if_neg hn',
        ih (List.pairwise_cons.mp ha).2 (List.pairwise_cons.mp hb).2 r' hr' n]

/-- Two name-sorted coverage lists with the same lookup function are
equal. -/
theorem covlLookup_ext {l1 : List Coverage} :
    ∀ {l2}, l1.Pairwise nameLt → l2.Pairwise nameLt →
      (∀ n, covlLookup n l1 = covlLookup n l2) → l1 = l2 := by
  induction l1 with
  | nil =>
    intro l2 _ _ h
    cases l2 with
    | nil => rfl
    | cons y t2 =>
      have hy : covlLookup y.r_name (y :: t2) = some y.cov := by
        rw [covlLookup, if_pos rfl]
      have := h y.r_name
      rw [show covlLookup y.r_name ([] : List Coverage) = none from rfl,
        hy] at this
      exact absurd this (by simp)
  | cons x t1 ih =>
    intro l2 h1 h2 h
    cases l2 with
    | nil =>
      have hx : covlLookup x.r_name (x :: t1) = some x.cov := by
        rw [covlLookup, if_pos rfl]
      have := h x.r_name
      rw [show covlLookup x.r_name ([] : List Coverage) = none from rfl,
        hx] at this
      exact absurd this (by simp)
    | cons y t2 =>
      have hkey : x.r_name = y.r_name := by
        by_contra hne
        have hx := h x.r_name
        rw [covlLookup, if_pos rfl, covlLookup, if_neg hne] at hx
        have hmem1 := covlLookup_mem hx.symm
        have hlt1 := (List.pairwise_cons.mp h2).1 _ hmem1
        have hy := h y.r_name
        rw [covlLookup, if_neg (fun hh => hne hh.symm), covlLookup,
          if_pos rfl] at hy
        have hmem2 := covlLookup_mem hy
        have hlt2 := (List.pairwise_cons.mp h1).1 _ hmem2
        simp only [nameLt] at hlt1 hlt2
        exact absurd (lt_trans hlt1 hlt2) (lt_irrefl _)
      have hcov : x.cov = y.cov := by
        have := h x.r_name
        rw [covlLookup, if_pos rfl, covlLookup, if_pos hkey] at this
        injection this
      have htail : ∀ n, covlLookup n t1 = covlLookup n t2 := by
        intro n
        by_cases hn : n = x.r_name
        · subst hn
          rw [covlLookup_eq_none, covlLookup_eq_none]
          · intro e he
            have := (List.pairwise_cons.mp h2).1 e he
            simp only [nameLt] at this
            rw [hkey]
            exact ne_of_lt this
          · intro e he
            have := (List.pairwise_cons.mp h1).1 e he
            simp only [nameLt] at this
            exact ne_of_lt this
        · have := h n
          rw [covlLookup, if_neg hn, covlLookup,
            if_neg (fun hh => hn (hh.trans hkey.symm))] at this
          exact this
      have hhead : x = y := by
        obtain ⟨n1, c1⟩ := x
        obtain ⟨n2, c2⟩ := y
        simp only at hkey hcov
        rw [hkey, hcov]
      rw [hhead, ih (List.pairwise_cons.mp h1).2 (List.pairwise_cons.mp h2).2
        htail]

/-- Pointwise combination of sorted optional tables is commutative. -/
theorem optMergeCovl_comm {x y : Option (List (Nat × Nat))}
    (hx : ∀ cv, x = some cv → cv.Pairwise keyLt)
    (hy : ∀ cv, y = some cv → cv.Pairwise keyLt) :
    optMergeCovl x y = optMergeCovl y x := by
  cases x with
  | none => rw [optMergeCovl_none_right]; rfl
  | some cx =>
    cases y with
    | none => rw [optMergeCovl_none_right]; rfl
    | some cy =>
      show some (mergeCov cx cy) = some (mergeCov cy cx)
      rw [mergeCov_comm (hx cx rfl) (hy cy rfl)]

/-- Pointwise combination of sorted optional tables is associative. -/
theorem optMergeCovl_assoc {x y z : Option (List (Nat × Nat))}
    (hx : ∀ cv, x = some cv → cv.Pairwise keyLt)
    (hy : ∀ cv, y = some cv → cv.Pairwise keyLt)
    (hz : ∀ cv, z = some cv → cv.Pairwise keyLt) :
    optMergeCovl (optMergeCovl x y) z = optMergeCovl x (optMergeCovl y z) := by
  cases x with
  | none => rfl
  | some cx =>
    cases y with
    | none => rfl
    | some cy =>
      cases z with
      | none => rw [optMergeCovl_none_right, optMergeCovl_none_right]
      | some cz =>
        show some (mergeCov (mergeCov cx cy) cz) =
          some (mergeCov cx (mergeCov cy cz))
        rw [mergeCov_assoc (hx cx rfl) (hy cy rfl) (hz cz rfl)]

/-- The name-level merge of name-sorted, member-sorted coverage lists is
commutative. -/
theorem mtc_comm {a b : List Coverage}
    (ha : a.Pairwise nameLt) (hb : b.Pairwise nameLt)
    (hsa : covSorted a) (hsb : covSorted b) :
    merge_two_coverages a b = merge_two_coverages b a := by
  obtain ⟨r1, h1⟩ := mtc_some a b
  obtain ⟨r2, h2⟩ := mtc_some b a
  rw [h1, h2]
  refine congrArg some (covlLookup_ext (mtc_pairwise ha hb r1 h1)
    (mtc_pairwise hb ha r2 h2) fun n => ?_)
  rw [mtc_lookup ha hb r1 h1 n, mtc_lookup hb ha r2 h2 n]
  exact optMergeCovl_comm (fun cv hcv => covlLookup_sorted hsa hcv)
    (fun cv hcv => covlLookup_sorted hsb hcv)

/-- The name-level merge of name-sorted, member-sorted coverage lists is
associative. -/
theorem mtc_assoc {a b c : List Coverage}
    (ha : a.Pairwise nameLt) (hb : b.Pairwise nameLt) (hc : c.Pairwise nameLt)
    (hsa : covSorted a) (hsb : covSorted b) (hsc : covSorted c) :
    (merge_two_coverages a b).bind (fun ab => merge_two_coverages ab c) =
      (merge_two_coverages b c).bind (fun bc => merge_two_coverages a bc) := by
  obtain ⟨ab, hab⟩ := mtc_some a b
  obtain ⟨bc, hbc⟩ := mtc_some b c
  obtain ⟨l, hl⟩ := mtc_some ab c
  obtain ⟨r, hr⟩ := mtc_some a bc
  rw [hab, hbc, Option.some_bind, Option.some_bind, hl, hr]
  have hpab := mtc_pairwise ha hb ab hab
  have hpbc := mtc_pairwise hb hc bc hbc
  have hsab := mtc_covSorted hsa hsb ab hab
  have hsbc := mtc_covSorted hsb hsc bc hbc
  refine congrArg some (covlLookup_ext (mtc_pairwise hpab hc l hl)
    (mtc_pairwise ha hpbc r hr) fun n => ?_)
  rw [mtc_lookup hpab hc l hl n, mtc_lookup ha hpbc r hr n,
    mtc_lookup ha hb ab hab n, mtc_lookup hb hc bc hbc n]
  exact optMergeCovl_assoc (fun cv hcv => covlLookup_sorted hsa hcv)
    (fun cv hcv => covlLookup_sorted hsb hcv)
    (fun cv hcv => covlLookup_sorted hsc hcv)

end sam

/-! ## Concrete values used by claim statements and witnesses -/

/-! ## C2 : forward-strand coordinate projection -/

/-- C2: for every `AlignInfo`, `seqstart_from_forward` equals `seqstart` on
the Forward strand and `seqlen - matchlen - seqstart` on the Reverse strand;
`end_from_forward` equals `start_from_forward + matchlen`; and on the
concrete Reverse-strand record with start 4, match length 527 and total
length 1125 the projections are 594 and 1121. -/
theorem c2_start_from_forward_projection
    (info : lasttab.AlignInfo) (t : lasttab.LastTAB) :
    (info.direction = .Forward →
      info.seqstart_from_forward = info.seqstart) ∧
    (info.direction = .Reverse →
      info.seqstart_from_forward = info.seqlen - info.matchlen - info.seqstart) ∧
    t.seq1_end_from_forward = t.seq1_start_from_forward + t.seq1_matchlen ∧
    t.seq2_end_from_forward = t.seq2_start_from_forward + t.seq2_matchlen ∧
    (t.seq2_information = c2Info →
      t.seq2_start_from_forward = 594 ∧ t.seq2_end_from_forward = 1121) := by
  refine ⟨fun h => ?_, fun h => ?_, rfl, rfl, fun h => ?_⟩
  · simp [lasttab.AlignInfo.seqstart_from_forward, h]
  · simp [lasttab.AlignInfo.seqstart_from_forward, h]
  · simp [lasttab.LastTAB.seq2_end_from_forward,
      lasttab.LastTAB.seq2_start_from_forward, lasttab.LastTAB.seq2_matchlen,
      h, c2Info, lasttab.AlignInfo.seqstart_from_forward]

/-- Witness for C2 at the sample record: all hypotheses discharged at
`c2Info` and `c2Tab`. -/
theorem c2_start_from_forward_projection_witness :
    c2Info.seqstart_from_forward = 1125 - 527 - 4 ∧
    c2Tab.seq2_start_from_forward = 594 ∧ c2Tab.seq2_end_from_forward = 1121 := by
  have h := c2_start_from_forward_projection c2Info c2Tab
  exact ⟨h.2.1 rfl, (h.2.2.2.2 rfl).1, (h.2.2.2.2 rfl).2⟩

/-! ## C1 : the coverage merge is commutative and associative -/

/-- C1: for coverage tables sharing one reference name, with strictly
position-ascending entries, `Coverage::merge` is commutative and
associative; and the reduction operator `merge_two_coverages` of the
parallel fold-then-reduce aggregation is commutative and associative on
name-sorted lists of such tables, so partition count and reduction order
cannot affect the final table. -/
theorem c1_coverage_merge_comm_assoc
    (a b c : sam.Coverage)
    (hab : a.r_name = b.r_name) (hbc : b.r_name = c.r_name)
    (ha : a.cov.Pairwise sam.keyLt) (hb : b.cov.Pairwise sam.keyLt)
    (hc : c.cov.Pairwise sam.keyLt)
    (A B C : List sam.Coverage)
    (hA : A.Pairwise sam.nameLt) (hB : B.Pairwise sam.nameLt)
    (hC : C.Pairwise sam.nameLt)
    (hsA : sam.covSorted A) (hsB : sam.covSorted B) (hsC : sam.covSorted C) :
    a.merge b = b.merge a ∧
    (a.merge b).bind (fun ab => ab.merge c) =
      (b.merge c).bind (fun bc => a.merge bc) ∧
    sam.merge_two_coverages A B = sam.merge_two_coverages B A ∧
    (sam.merge_two_coverages A B).bind
        (fun ab => sam.merge_two_coverages ab C) =
      (sam.merge_two_coverages B C).bind
        (fun bc => sam.merge_two_coverages A bc) := by
  refine ⟨?_, ?_, sam.mtc_comm hA hB hsA hsB,
    sam.mtc_assoc hA hB hC hsA hsB hsC⟩
  · rw [sam.Coverage.merge_eq_some hab, sam.Coverage.merge_eq_some hab.symm,
      sam.mergeCov_comm ha hb, hab]
  · rw [sam.Coverage.merge_eq_some hab, Option.some_bind,
      sam.Coverage.merge_eq_some hbc, Option.some_bind,
      @sam.Coverage.merge_eq_some
        ⟨a.r_name, sam.mergeCov a.cov b.cov⟩ c (hab.trans hbc),
      @sam.Coverage.merge_eq_some
        a ⟨b.r_name, sam.mergeCov b.cov c.cov⟩ hab]
    simp only [Option.some.injEq, sam.Coverage.mk.injEq]
    exact ⟨trivial, sam.mergeCov_assoc ha hb hc⟩

/-- Witness for C1 at concrete sorted tables and table lists. -/
theorem c1_coverage_merge_comm_assoc_witness :
    c1CovA.merge c1CovB = c1CovB.merge c1CovA ∧
    (c1CovA.merge c1CovB).bind (fun ab => ab.merge c1CovC) =
      (c1CovB.merge c1CovC).bind (fun bc => c1CovA.merge bc) ∧
    sam.merge_two_coverages c1ListA c1ListB =
      sam.merge_two_coverages c1ListB c1ListA ∧
    (sam.merge_two_coverages c1ListA c1ListB).bind
        (fun ab => sam.merge_two_coverages ab c1ListC) =
      (sam.merge_two_coverages c1ListB c1ListC).bind
        (fun bc => sam.merge_two_coverages c1ListA bc) :=
  c1_coverage_merge_comm_assoc c1CovA c1CovB c1CovC rfl rfl
    (by decide) (by decide) (by decide) c1ListA c1ListB c1ListC
    (by decide) (by decide) (by decide) (by decide) (by decide) (by decide)

/-! ## C5 : coverage of position-0 records -/

/-- The coverage loop emits nothing when no Align/Match operation occurs. -/
theorem covEntries_no_emit {ops : List sam.Op} (c : Nat)
    (h : ∀ op ∈ ops, op.isAlignOrMatch = false) :
    sam.covEntries c ops = [] := by
  induction ops generalizing c with
  | nil => rfl
  | cons op rest ih =>
    rw [sam.covEntries]
    have hop := h op (by simp)
    have hrest : sam.covEntries (sam.covStep ([], c) op).2 rest = [] :=
      ih _ fun o ho => h o (by simp [ho])
    cases op <;> simp_all [sam.covStep, sam.Op.isAlignOrMatch]

/-- Counterexample to C5 as stated: a record with mapped position 0 and
CIGAR `5M` yields a non-empty coverage table, because `Sam::to_coverage`
never special-cases position 0. -/
theorem c5_pos_zero_counterexample :
    c5Sam.pos = 0 ∧ (sam.Sam.to_coverage c5Sam).cov ≠ [] ∧
      (sam.Sam.to_coverage c5Sam).cov =
        [(0, 1), (1, 1), (2, 1), (3, 1), (4, 1)] := by
  decide

/-- C5 amended: a record with mapped position 0 yields an empty coverage
table provided its decoded operation sequence contains no Align and no
Match run (as is the case for the `*` CIGAR of real unmapped records,
which decodes to no operations); `to_coverage` itself never inspects the
position. -/
theorem c5_pos_zero_amended (s : sam.Sam) (h0 : s.pos = 0)
    (h : ∀ op ∈ s.cigar, op.isAlignOrMatch = false) :
    (s.to_coverage).cov = [] := by
  rw [sam.to_coverage_cov]
  exact covEntries_no_emit _ h

/-- Witness for the amended C5 at a concrete position-0 record with CIGAR
`3D2I`. -/
theorem c5_pos_zero_amended_witness :
    (sam.Sam.to_coverage c5wSam).cov = [] :=
  c5_pos_zero_amended c5wSam rfl (by decide)

/-! ## C8 : coverage positions stay in the record's reference window -/

/-- C8: for a mapped record (`pos ≥ 1`), every position in the output of
`to_coverage` lies in the half-open window from `pos` to `pos` plus the
reference-consumed length of its operations. -/
theorem c8_coverage_within_reference_window (s : sam.Sam) (h : 1 ≤ s.pos)
    (p d : Nat) (hm : (p, d) ∈ (s.to_coverage).cov) :
    s.pos ≤ p ∧ p < s.pos + sam.refConsumedLen s.cigar := by
  rw [sam.to_coverage_cov] at hm
  exact sam.covEntries_mem hm

/-- Witness for C8 at a concrete mapped record. -/
theorem c8_coverage_within_reference_window_witness :
    c8Sam.pos ≤ 3 ∧ 3 < c8Sam.pos + sam.refConsumedLen c8Sam.cigar :=
  c8_coverage_within_reference_window c8Sam (by decide) 3 1 (by decide)

/-! ## C10 : Mismatch runs consume reference but emit no coverage -/

/-- C10: a Mismatch run advances the reference cursor by its length but
emits no entries, so the reference positions it consumes are absent from
the record's coverage table, while every position consumed by an Align or
Match run receives a depth-1 entry. -/
theorem c10_mismatch_absent_from_coverage (s : sam.Sam)
    (pre post : List sam.Op) (L : Nat) :
    (s.cigar = pre ++ .Mismatch L :: post →
      ∀ k, k < L → ∀ dep,
        (s.pos + sam.refConsumedLen pre + k, dep) ∉ (s.to_coverage).cov) ∧
    (s.cigar = pre ++ .Align L :: post →
      ∀ k, k < L →
        (s.pos + sam.refConsumedLen pre + k, 1) ∈ (s.to_coverage).cov) ∧
    (s.cigar = pre ++ .Match L :: post →
      ∀ k, k < L →
        (s.pos + sam.refConsumedLen pre + k, 1) ∈ (s.to_coverage).cov) := by
  refine ⟨fun hcig k hk dep hmem => ?_, fun hcig k hk => ?_, fun hcig k hk => ?_⟩
  · rw [sam.to_coverage_cov, hcig, sam.covEntries_append, List.mem_append] at hmem
    rcases hmem with hmem | hmem
    · have := sam.covEntries_mem hmem
      omega
    · rw [sam.covEntries] at hmem
      simp only [sam.covStep, List.nil_append, sam.covStep_snd] at hmem
      have := sam.covEntries_mem hmem
      have hL : sam.refConsumedLen [sam.Op.Mismatch L] = L := by
        simp [sam.refConsumedLen]
      omega
  · rw [sam.to_coverage_cov, hcig, sam.covEntries_append]
    refine List.mem_append_right _ ?_
    rw [sam.covEntries]
    refine List.mem_append_left _ ?_
    simp [sam.covStep]
    omega
  · rw [sam.to_coverage_cov, hcig, sam.covEntries_append]
    refine List.mem_append_right _ ?_
    rw [sam.covEntries]
    refine List.mem_append_left _ ?_
    simp [sam.covStep]
    omega

/-- Witness for C10 at the record `2M3X4M` mapped at position 1: reference
position 4 (consumed by the `3X` run) is absent at every depth sampled,
while position 1 (consumed by the leading `2M` run) has a depth-1 entry. -/
theorem c10_mismatch_absent_from_coverage_witness :
    (4, 1) ∉ (sam.Sam.to_coverage c10Sam).cov ∧
      (1, 1) ∈ (sam.Sam.to_coverage c10Sam).cov :=
  ⟨(c10_mismatch_absent_from_coverage c10Sam [.Align 2] [.Align 4] 3).1
      (by decide) 1 (by decide) 1,
   (c10_mismatch_absent_from_coverage c10Sam [] [.Mismatch 3, .Align 4] 2).2.1
      (by decide) 0 (by decide)⟩

/-! ## C9 : unmapped records fail conversion recoverably -/

/-- C9: a record whose reference position is 0 makes `try_from` return the
recoverable error value `Except.error "Alignment Invalid"`; no abort is
reachable before that check, so conversion never raises a fatal error. -/
theorem c9_pos_zero_conversion_error
    (value : lasttab.Record) (length : List (String × Nat))
    (h : value.pos = 0) :
    lasttab.try_from value length = Except.error "Alignment Invalid" := by
  simp [lasttab.try_from, h]

/-- Witness for C9 at a concrete unmapped record. -/
theorem c9_pos_zero_conversion_error_witness :
    lasttab.try_from
      { q_name := "q", r_name := "ref", pos := 0, forward := true,
        cigar := [.Align 5], attr := ["AS:i:100"] } [("ref", 100)] =
      Except.error "Alignment Invalid" :=
  c9_pos_zero_conversion_error _ _ rfl

/-! ## C6 : lengths of decoded operations -/

/-- Shape of a successful `Op::from_string` call: the result extends `res`
with new operations, and every insertion operation among them is strictly
positive (a zero half of a colon token emits nothing). -/
theorem from_string_shape (res : List lasttab.Op) (input : String)
    (res' : List lasttab.Op) (h : lasttab.Op.from_string res input = some res') :
    ∃ t, res' = res ++ t ∧ ∀ op ∈ t,
      (∀ l, op = lasttab.Op.Seq1In l → 0 < l) ∧
      (∀ l, op = lasttab.Op.Seq2In l → 0 < l) := by
  unfold lasttab.Op.from_string at h
  split at h
  · split at h
    · split at h
      · rename_i o1 o2 n1 n2 he1 he2
        injection h with h'
        refine ⟨(if n1 ≠ 0 then [lasttab.Op.Seq2In n1] else []) ++
                (if n2 ≠ 0 then [lasttab.Op.Seq1In n2] else []), ?_, ?_⟩
        · rw [← h', List.append_assoc]
        · intro op hop
          rw [List.mem_append] at hop
          rcases hop with hop | hop
          · by_cases hz : n1 = 0
            · simp [hz] at hop
            · simp [hz] at hop
              subst hop
              refine ⟨fun l hl => by simp at hl, fun l hl => ?_⟩
              injection hl with h2
              omega
          · by_cases hz : n2 = 0
            · simp [hz] at hop
            · simp [hz] at hop
              subst hop
              refine ⟨fun l hl => ?_, fun l hl => by simp at hl⟩
              injection hl with h2
              omega
      · simp at h
    · simp at h
  · rcases hp : lasttab.parseNatChars input.data with _ | n <;> rw [hp] at h
    · simp at h
    · simp only [Option.map_some', Option.some.injEq] at h
      refine ⟨[lasttab.Op.Match n], h.symm, ?_⟩
      intro op hop
      simp only [List.mem_singleton] at hop
      subst hop
      exact ⟨fun l hl => by simp at hl, fun l hl => by simp at hl⟩

/-- Counterexample to C6 as stated: the CIGAR decoder emits a zero-length
run for the text `0M`. -/
theorem c6_zero_length_counterexample :
    sam.parse_cigar_string "0M" = [sam.Op.Align 0] ∧
      ¬ (∀ op ∈ sam.parse_cigar_string "0M", 0 < op.len) := by
  decide

/-- C6 amended: decoded sequences can contain zero-length runs (the CIGAR
decoder on `0M`, a bare `0` token), but every insertion operation emitted by
the comma-separated pairwise-token decoder is strictly positive: a
zero-valued colon-token half emits no operation. -/
theorem c6_from_string_insertions_positive (res : List lasttab.Op)
    (input : String) (res' : List lasttab.Op)
    (h : lasttab.Op.from_string res input = some res') (l : Nat) :
    (lasttab.Op.Seq1In l ∈ res' → lasttab.Op.Seq1In l ∈ res ∨ 0 < l) ∧
    (lasttab.Op.Seq2In l ∈ res' → lasttab.Op.Seq2In l ∈ res ∨ 0 < l) := by
  obtain ⟨t, rfl, ht⟩ := from_string_shape res input res' h
  constructor <;> intro hmem <;> rw [List.mem_append] at hmem <;>
    rcases hmem with hmem | hmem
  · exact Or.inl hmem
  · exact Or.inr ((ht _ hmem).1 l rfl)
  · exact Or.inl hmem
  · exact Or.inr ((ht _ hmem).2 l rfl)

/-- Witness for the amended C6 at the token `2:5` starting from an empty
list. -/
theorem c6_from_string_insertions_positive_witness :
    (lasttab.Op.Seq1In 5 ∈ ([lasttab.Op.Seq2In 2, lasttab.Op.Seq1In 5] : List lasttab.Op) →
      lasttab.Op.Seq1In 5 ∈ ([] : List lasttab.Op) ∨ 0 < 5) ∧
    (lasttab.Op.Seq2In 5 ∈ ([lasttab.Op.Seq2In 2, lasttab.Op.Seq1In 5] : List lasttab.Op) →
      lasttab.Op.Seq2In 5 ∈ ([] : List lasttab.Op) ∨ 0 < 5) :=
  c6_from_string_insertions_positive [] "2:5"
    [lasttab.Op.Seq2In 2, lasttab.Op.Seq1In 5] (by decide) 5

/-! ## C7 : CIGAR encode/decode round trip -/

namespace sam

/-- Characters produced by `Nat.digitChar` below ten are decimal digits and
decode back to their value. -/
theorem digitChar_spec : ∀ n < 10,
    (Nat.digitChar n).isDigit = true ∧
      (Nat.digitChar n).toNat - '0'.toNat = n := by
  decide

/-- Scanning the decimal digits of `n` multiplies the pending run length by
the corresponding power of ten and adds `n`. -/
theorem parse_fold_digits (fuel : Nat) :
    ∀ n done m, n < fuel →
      (decDigitsCore fuel n).foldl parseCigarStep (done, m) =
        (done, m * 10 ^ (decDigitsCore fuel n).length + n) := by
  induction fuel with
  | zero => omega
  | succ fuel ih =>
    intro n done m hn
    rw [decDigitsCore]
    by_cases h10 : n < 10
    · obtain ⟨hd, hv⟩ := digitChar_spec n h10
      simp only [if_pos h10, List.foldl_cons, List.foldl_nil, parseCigarStep,
        hd, if_true, hv, List.length_singleton, pow_one, Prod.mk.injEq,
        true_and]
      omega
    · have hlt : n / 10 < fuel := by
        have := Nat.div_lt_self (by omega : 0 < n) (by omega : 1 < 10)
        omega
      obtain ⟨hd, hv⟩ := digitChar_spec (n % 10) (Nat.mod_lt _ (by omega))
      simp only [if_neg h10, List.foldl_append, ih (n / 10) done m hlt,
        List.foldl_cons, List.foldl_nil, parseCigarStep, hd, if_true, hv,
        List.length_append, List.length_singleton, pow_succ, Prod.mk.injEq,
        true_and]
      have hdm := Nat.div_add_mod n 10
      set k := (decDigitsCore fuel (n / 10)).length
      set A := m * 10 ^ k with hA
      have hmul : m * (10 ^ k * 10) = A * 10 := by rw [hA]; ring
      rw [hmul]
      omega

/-- Character-level encoding of one operation: the decimal digits of its
length followed by a code letter that is not a digit and decodes back to
the operation. -/
theorem as_str_data (op : Op) :
    ∃ c : Char, (Op.as_str op).data = decDigits op.len ++ [c] ∧
      c.isDigit = false ∧ Op.from op.len c = some op := by
  cases op
  case Align x => exact ⟨'M', rfl, by decide, rfl⟩
  case Insertion x => exact ⟨'I', rfl, by decide, rfl⟩
  case Deletion x => exact ⟨'D', rfl, by decide, rfl⟩
  case Skipped x => exact ⟨'N', rfl, by decide, rfl⟩
  case SoftClip x => exact ⟨'S', rfl, by decide, rfl⟩
  case HardClip x => exact ⟨'H', rfl, by decide, rfl⟩
  case Padding x => exact ⟨'P', rfl, by decide, rfl⟩
  case Match x => exact ⟨'=', rfl, by decide, rfl⟩
  case Mismatch x => exact ⟨'X', rfl, by decide, rfl⟩

/-- A non-digit character that resolves to an operation emits it and resets
the pending run length. -/
theorem parse_step_emit {x : Nat} {c : Char} {op : Op} (done : List Op)
    (hd : c.isDigit = false) (hf : Op.from x c = some op) :
    parseCigarStep (done, x) c = (done ++ [op], 0) := by
  simp [parseCigarStep, hd, hf]

/-- Scanning one encoded operation from a clean state appends exactly that
operation and resets the run length. -/
theorem parse_fold_one_op (op : Op) (done : List Op) :
    (Op.as_str op).data.foldl parseCigarStep (done, 0) = (done ++ [op], 0) := by
  obtain ⟨c, hdata, hd, hf⟩ := as_str_data op
  rw [hdata, decDigits, List.foldl_append,
    parse_fold_digits (op.len + 1) op.len done 0 (Nat.lt_succ_self _)]
  simp only [Nat.zero_mul, Nat.zero_add, List.foldl_cons, List.foldl_nil]
  exact parse_step_emit done hd hf

/-- Scanning a concatenation of encoded operations from a clean state
appends exactly those operations. -/
theorem parse_fold_encode (ops : List Op) :
    ∀ done, ((ops.map fun op => (Op.as_str op).data).flatten).foldl
        parseCigarStep (done, 0) = (done ++ ops, 0) := by
  induction ops with
  | nil => simp
  | cons op rest ih =>
    intro done
    simp only [List.map_cons, List.flatten_cons, List.foldl_append,
      parse_fold_one_op op done, ih (done ++ [op])]
    simp

/-- Concatenating strings by a left fold concatenates their character
lists. -/
theorem foldl_append_data (ops : List Op) :
    ∀ s : String, (ops.foldl (fun acc op => acc ++ Op.as_str op) s).data =
      s.data ++ (ops.map fun op => (Op.as_str op).data).flatten := by
  induction ops with
  | nil => simp
  | cons op rest ih =>
    intro s
    simp only [List.foldl_cons, ih (s ++ Op.as_str op), String.data_append,
      List.map_cons, List.flatten_cons, List.append_assoc]

/-- C7: decoding the separator-free concatenation of the encodings of an
operation sequence returns exactly that sequence:
`parse_cigar_string` is a left inverse of concatenated `Op::as_str`. -/
theorem c7_parse_cigar_roundtrip (ops : List Op) :
    parse_cigar_string (ops.foldl (fun acc op => acc ++ Op.as_str op) "") = ops := by
  rw [parse_cigar_string, foldl_append_data]
  have h0 : ("" : String).data = [] := rfl
  rw [h0, List.nil_append, parse_fold_encode ops [], List.nil_append]

/-! ## C4 : reconstruction of Match/Align runs -/

/-- An in-bounds slice is the list of elements read at successive offsets
from the cursor. -/
theorem take_drop_as_range_map (xs : List Nat) (i l : Nat)
    (h : i + l ≤ xs.length) :
    (xs.drop i).take l = (List.range l).map (fun k => xs.getD (i + k) 0) := by
  apply List.ext_getElem
  · simp
    omega
  · intro k hk1 hk2
    simp only [List.getElem_take, List.getElem_drop, List.getElem_map,
      List.getElem_range]
    rw [List.getD_eq_getElem xs 0 (by simp at hk1 ⊢; omega)]

/-- The marker block of an in-bounds aligned run holds byte 124 (`|`) at the
offsets where query and reference agree and byte 88 (`X`) elsewhere. -/
theorem match_mismatch_as_range_map (seq1 seq2 : List Nat) (i j l : Nat)
    (h1 : i + l ≤ seq1.length) (h2 : j + l ≤ seq2.length) :
    match_mismatch ((seq1.drop i).take l) ((seq2.drop j).take l) =
      (List.range l).map (fun k =>
        if seq1.getD (i + k) 0 = seq2.getD (j + k) 0 then 124 else 88) := by
  rw [match_mismatch, take_drop_as_range_map seq1 i l h1,
    take_drop_as_range_map seq2 j l h2, List.zip_map', List.map_map]
  rfl

/-- Counterexample to C4 as stated: the reconstruction loop does not treat
the exact-match kind `=` like the generic match `M`; an `=` run contributes
nothing to the three rows. -/
theorem c4_match_align_counterexample :
    recover_alignment [sam.Op.Match 2] [65, 66] [65, 67] 1 ≠
      recover_alignment [sam.Op.Align 2] [65, 66] [65, 67] 1 ∧
    sam.recoverStep [65, 66] [65, 67]
        { seq1_with_gap := [], operations := [], seq2_with_gap := [],
          seq1idx := 0, seq2idx := 0 } (sam.Op.Match 2) =
      { seq1_with_gap := [], operations := [], seq2_with_gap := [],
        seq1idx := 0, seq2idx := 0 } := by
  constructor
  · decide
  · rfl

/-- C4 amended: every Align (`M`) run of length `L` with in-bounds cursors
copies `L` bytes of the query and `L` bytes of the reference at the
respective cursors into the padded rows, advances both cursors by `L`, and
appends one marker byte per position — `|` (byte 124) where the two bytes
are equal and `X` (byte 88) otherwise; exact-match (`=`) and mismatch (`X`)
runs fall into the loop's catch-all arm and contribute nothing. -/
theorem c4_align_run_reconstruction (seq1 seq2 : List Nat)
    (st : sam.RecState) (l : Nat)
    (h1 : st.seq1idx + l ≤ seq1.length) (h2 : st.seq2idx + l ≤ seq2.length) :
    sam.recoverStep seq1 seq2 st (sam.Op.Align l) =
      { st with
        seq1_with_gap := st.seq1_with_gap ++
          (List.range l).map (fun k => seq1.getD (st.seq1idx + k) 0)
        seq2_with_gap := st.seq2_with_gap ++
          (List.range l).map (fun k => seq2.getD (st.seq2idx + k) 0)
        operations := st.operations ++ (List.range l).map (fun k =>
          if seq1.getD (st.seq1idx + k) 0 = seq2.getD (st.seq2idx + k) 0
          then 124 else 88)
        seq1idx := st.seq1idx + l
        seq2idx := st.seq2idx + l } ∧
    sam.recoverStep seq1 seq2 st (sam.Op.Match l) = st ∧
    sam.recoverStep seq1 seq2 st (sam.Op.Mismatch l) = st := by
  refine ⟨?_, rfl, rfl⟩
  show sam.RecState.mk _ _ _ _ _ = _
  rw [take_drop_as_range_map seq1 _ l h1, take_drop_as_range_map seq2 _ l h2,
    ← match_mismatch_as_range_map seq1 seq2 _ _ l h1 h2,
    take_drop_as_range_map seq1 _ l h1, take_drop_as_range_map seq2 _ l h2]

/-- Witness for the amended C4 on a two-byte aligned run with one agreeing
and one disagreeing position. -/
theorem c4_align_run_reconstruction_witness :
    sam.recoverStep [65, 66] [65, 67]
        { seq1_with_gap := [], operations := [], seq2_with_gap := [],
          seq1idx := 0, seq2idx := 0 } (sam.Op.Align 2) =
      { seq1_with_gap := [65, 66], operations := [124, 88],
        seq2_with_gap := [65, 67], seq1idx := 2, seq2idx := 2 } := by
  rw [(c4_align_run_reconstruction [65, 66] [65, 67]
    { seq1_with_gap := [], operations := [], seq2_with_gap := [],
      seq1idx := 0, seq2idx := 0 } 2 (by decide) (by decide)).1]
  decide

end sam

/-! ## C3 : clip handling of the cross-format converter -/

namespace lasttab

/-- Once the head slot is nonzero it never changes, and the tail slot ends
at the last clip seen. -/
theorem clipFold_nonzero (ls : List Nat) :
    ∀ hc tc, hc ≠ 0 → ls.foldl clipStep (hc, tc) = (hc, ls.getLastD tc) := by
  induction ls with
  | nil => intro hc tc _; rfl
  | cons l rest ih =>
    intro hc tc hne
    simp only [List.foldl_cons, clipStep, if_neg hne, ih hc l hne,
      List.getLastD_cons]

/-- The clip fold from the zero state computes the first nonzero clip and
the last clip after it. -/
theorem clipFold_eq (ls : List Nat) :
    ls.foldl clipStep (0, 0) = (firstNonzero ls, lastAfterFirstNonzero ls) := by
  induction ls with
  | nil => rfl
  | cons l rest ih =>
    by_cases hz : l = 0
    · subst hz
      rw [List.foldl_cons, show clipStep (0, 0) 0 = (0, 0) from rfl, ih]
      simp [firstNonzero, lastAfterFirstNonzero, List.dropWhile_cons]
    · rw [List.foldl_cons, show clipStep (0, 0) l = (l, 0) from rfl,
        clipFold_nonzero rest l 0 hz]
      simp [firstNonzero, lastAfterFirstNonzero, List.dropWhile_cons, hz]

/-- Projection of the converter's loop onto its clip state: on success the
recorded head and tail clips are the fold of `clipStep` over the record's
clip lengths. -/
theorem convOps_clips (ops : List sam.Op) :
    ∀ aln hc tc aln' hc' tc',
      convOps ops (aln, hc, tc) = .ok (aln', hc', tc') →
      (hc', tc') = (clipLens ops).foldl clipStep (hc, tc) := by
  induction ops with
  | nil =>
    intro aln hc tc aln' hc' tc' h
    injection h with h'
    injection h' with h1 h2
    injection h2 with h2 h3
    subst h2
    subst h3
    rfl
  | cons op rest ih =>
    intro aln hc tc aln' hc' tc' h
    cases op <;>
      simp only [convOps, clipLens, List.filterMap_cons] at h ⊢ <;>
      try exact ih _ _ _ _ _ _ h
    case SoftClip l =>
      by_cases hz : hc = 0
      · rw [if_pos hz] at h
        subst hz
        simpa [clipStep] using ih _ _ _ _ _ _ h
      · rw [if_neg hz] at h
        simpa [clipStep, hz] using ih _ _ _ _ _ _ h
    case HardClip l =>
      by_cases hz : hc = 0
      · rw [if_pos hz] at h
        subst hz
        simpa [clipStep] using ih _ _ _ _ _ _ h
      · rw [if_neg hz] at h
        simpa [clipStep, hz] using ih _ _ _ _ _ _ h
    case Skipped l => exact absurd h (by simp)
    case Padding l => exact absurd h (by simp)

/-- The whole-sequence query total of `try_from` splits into the clip sum
plus the query-consumed tally. -/
theorem total_split (ops : List sam.Op) :
    (ops.map fun op =>
      match op with
      | .HardClip l | .SoftClip l | .Insertion l | .Align l
      | .Match l | .Mismatch l => l
      | _ => 0).sum = (clipLens ops).sum + queryTally ops := by
  induction ops with
  | nil => rfl
  | cons op rest ih =>
    cases op <;>
      simp only [List.map_cons, List.sum_cons, clipLens, queryTally,
        List.filterMap_cons] at ih ⊢ <;>
      omega

/-- With at most two clips, the recorded head and tail clips sum to the
total clip length. -/
theorem head_tail_sum (ls : List Nat) (h : ls.length ≤ 2) :
    firstNonzero ls + lastAfterFirstNonzero ls = ls.sum := by
  match ls with
  | [] => rfl
  | [a] =>
    by_cases hz : a = 0 <;>
      simp [firstNonzero, lastAfterFirstNonzero, List.dropWhile_cons, hz]
  | [a, b] =>
    by_cases hz : a = 0
    · subst hz
      by_cases hb : b = 0 <;>
        simp [firstNonzero, lastAfterFirstNonzero, List.dropWhile_cons, hb]
    · simp [firstNonzero, lastAfterFirstNonzero, List.dropWhile_cons, hz]
  | _ :: _ :: _ :: _ => simp at h

/-- C3 amended: on every successful conversion the query-side start is the
first nonzero-length clip (so a record whose only clip trails still gets
that clip as its head clip, not 0), the query-side match length is the
query-consumed tally, the query-side total length is the sum of all clip
lengths plus that tally, and for records with at most two clip operations
the total equals head clip + query tally + tail clip. -/
theorem c3_converter_clip_handling (r : Record) (len : List (String × Nat))
    (lt : LastTAB) (h : try_from r len = .ok lt) :
    lt.seq2_information.seqstart = headClipSpec r.cigar ∧
    lt.seq2_information.matchlen = queryTally r.cigar ∧
    lt.seq2_information.seqlen = (clipLens r.cigar).sum + queryTally r.cigar ∧
    ((clipLens r.cigar).length ≤ 2 →
      lt.seq2_information.seqlen =
        headClipSpec r.cigar + queryTally r.cigar + tailClipSpec r.cigar) := by
  simp only [try_from] at h
  split at h
  · exact absurd h (by simp)
  · split at h
    · exact absurd h (by simp)
    · split at h
      · exact absurd h (by simp)
      · split at h
        · exact absurd h (by simp)
        · split at h
          · exact absurd h (by simp)
          · rename_i conv alignment head_clip tail_clip hconv
            split at h
            · exact absurd h (by simp)
            · rename_i kv hkv
              injection h with h'
              subst h'
              have hclips := convOps_clips r.cigar [] 0 0 _ _ _ hconv
              rw [clipFold_eq] at hclips
              injection hclips with hh ht
              refine ⟨hh, rfl, total_split r.cigar, fun hlen => ?_⟩
              have hsum := head_tail_sum (clipLens r.cigar) hlen
              calc _ = (clipLens r.cigar).sum + queryTally r.cigar :=
                    total_split r.cigar
                _ = headClipSpec r.cigar + queryTally r.cigar +
                      tailClipSpec r.cigar := by
                    simp only [headClipSpec, tailClipSpec]
                    omega

/-- Counterexample to C3 as stated: a record whose only clip is a trailing
one gets query-side start 3 (the clip length), not 0, because the loop's
guard `head_clip == 0` records the first clip it meets as the head clip
even at the end of the sequence. -/
theorem c3_trailing_clip_counterexample :
    (try_from c3Rec c3Len).toOption.map
        (fun lt => lt.seq2_information.seqstart) = some 3 ∧
    ¬ (try_from c3Rec c3Len).toOption.map
        (fun lt => lt.seq2_information.seqstart) = some 0 := by
  constructor <;> decide

/-- Witness for the amended C3 at `c3Rec`: the conversion succeeds and the
clip bookkeeping matches the code's head-clip rule. -/
theorem c3_converter_clip_handling_witness :
    c3Lt.seq2_information.seqstart = headClipSpec c3Rec.cigar ∧
    c3Lt.seq2_information.seqlen =
      headClipSpec c3Rec.cigar + queryTally c3Rec.cigar +
        tailClipSpec c3Rec.cigar := by
  have h := c3_converter_clip_handling c3Rec c3Len c3Lt rfl
  exact ⟨h.1, h.2.2.2 (by decide)⟩

end lasttab

end BioUtils
